import Mathlib

/-!
Verification of the GroveDB-class repository against its specification.

This file gives a shallow embedding of the parts of the source relevant to
the frozen claims:

* the Merk proof-operator VM (`src/merk/src/proofs/tree.rs`, `execute`);
* the path-to-prefix derivation and reference following of the top-level
  database (`src/grovedb/src/lib.rs`);
* the chunked-restore bookkeeping (`src/merk/src/merk/restore.rs`);
* the batch structure builder (`src/grovedb/src/batch/batch_structure.rs`);
* the storage-cost arithmetic of the single-deletion cost tests
  (`src/grovedb/src/batch/single_deletion_cost_tests.rs`), modelled from the
  spec where the cost implementation itself is not part of the sources.

Byte strings (`Vec<u8>`) are embedded as `List Nat`; machine integers that
only ever hold small sizes are embedded as `Nat`.  Cryptographic hashes are
embedded as a free algebra (`Hash`), which models the hash functions as
injective and collision-free constructors.  Fallible Rust code returns
`Except`.
-/

/-- Byte strings `Vec<u8>` are lists of naturals. -/
abbrev Bytes := List Nat

/-- Three-way lexicographic comparison of byte strings; this is the order
`Ord`/`PartialOrd` give to `Vec<u8>` in Rust. -/
def bytesCmp : Bytes → Bytes → Ordering
  | [], [] => Ordering.eq
  | [], _ :: _ => Ordering.lt
  | _ :: _, [] => Ordering.gt
  | a :: as, b :: bs =>
    if a < b then Ordering.lt
    else if b < a then Ordering.gt
    else bytesCmp as bs

/-- Strict lexicographic `<` on byte strings. -/
def ltBytes (a b : Bytes) : Bool := bytesCmp a b == Ordering.lt

/-- Lexicographic `<=` on byte strings (`key <= last_key` in the source). -/
def leBytes (a b : Bytes) : Bool := !(bytesCmp a b == Ordering.gt)

/-- Lexicographic `>=` on byte strings (`key >= last_key` in the source). -/
def geBytes (a b : Bytes) : Bool := !(bytesCmp a b == Ordering.lt)

/-- Cryptographic 32-byte digests, embedded as a free algebra: `null` is the
32-zero-byte `NULL_HASH`; the other constructors model the hash functions of
`crate::tree` (`node_hash`, `kv_hash`, `kv_digest_to_kv_hash`, `value_hash`,
`combine_hash`) as collision-free term formers. -/
inductive Hash : Type where
  | null : Hash
  | nodeHash (kv left right : Hash) : Hash
  | kvHash (key value : Bytes) : Hash
  | kvDigest (key : Bytes) (valueHash : Hash) : Hash
  | valueHash (value : Bytes) : Hash
  | combine (a b : Hash) : Hash
deriving DecidableEq, Repr

/-- Tree feature type of a node (`TreeFeatureType`): basic or summed. -/
inductive FeatureType : Type where
  | BasicMerk : FeatureType
  | SummedMerk (sum : Int) : FeatureType
deriving DecidableEq, Repr

/-- Proof node variants (`Node` in `src/merk/src/proofs`), exactly the seven
variants dispatched by `Tree::hash` and `execute` in
`src/merk/src/proofs/tree.rs`. -/
inductive Node : Type where
  | Hash (hash : Hash) : Node
  | KVHash (kvHash : Hash) : Node
  | KV (key value : Bytes) : Node
  | KVValueHash (key value : Bytes) (valueHash : Hash) : Node
  | KVDigest (key : Bytes) (valueHash : Hash) : Node
  | KVRefValueHash (key referencedValue : Bytes) (nodeValueHash : Hash) : Node
  | KVValueHashFeatureType (key value : Bytes) (valueHash : Hash)
      (featureType : FeatureType) : Node
deriving DecidableEq, Repr

/-- Proof operators (`Op` in `src/merk/src/proofs`). -/
inductive Op : Type where
  | Push (node : Node) : Op
  | PushInverted (node : Node) : Op
  | Parent : Op
  | Child : Op
  | ParentInverted : Op
  | ChildInverted : Op
deriving DecidableEq, Repr

/-- Errors surfaced by the proof VM (`merk::error::Error`, restricted to the
variants reachable from `execute`): `InvalidProofError` carries its message,
`CorruptedCodeExecution` is raised by `Tree::attach`, and `VisitorError`
stands for an error returned by the caller's `visit_node` hook. -/
inductive VmError : Type where
  | InvalidProofError (msg : String) : VmError
  | CorruptedCodeExecution (msg : String) : VmError
  | VisitorError (msg : String) : VmError
deriving DecidableEq, Repr

/-- The partial tree built by proof verification
(`Tree` in `src/merk/src/proofs/tree.rs`): a node, optional left and right
children each stored together with their already-computed hash (`Child`),
and a height. -/
inductive PTree : Type where
  | mk (node : Node) (left right : Option (PTree × Hash)) (height : Nat) : PTree

/-- Node field of a partial tree. -/
def PTree.node : PTree → Node
  | .mk n _ _ _ => n

/-- Left child (with its stored hash) of a partial tree. -/
def PTree.left : PTree → Option (PTree × Hash)
  | .mk _ l _ _ => l

/-- Right child (with its stored hash) of a partial tree. -/
def PTree.right : PTree → Option (PTree × Hash)
  | .mk _ _ r _ => r

/-- Height field of a partial tree. -/
def PTree.height : PTree → Nat
  | .mk _ _ _ h => h

/-- Childless tree of height 1 built from a node (`impl From<Node> for Tree`). -/
def PTree.leaf (n : Node) : PTree := .mk n none none 1

/-- Hash of a partial tree (`Tree::hash`).  It dispatches on the node variant
and combines the node's kv-hash with the two stored child hashes via
`node_hash`, using `NULL_HASH` for absent children; `Node::Hash` is returned
as-is.  Children's hashes are read from the `Child` records, so no recursion
is needed. -/
def treeHash (t : PTree) : Hash :=
  let lh : Hash := match t.left with | some c => c.2 | none => Hash.null
  let rh : Hash := match t.right with | some c => c.2 | none => Hash.null
  match t.node with
  | .Hash h => h
  | .KVHash kvh => Hash.nodeHash kvh lh rh
  | .KV k v => Hash.nodeHash (Hash.kvHash k v) lh rh
  | .KVValueHash k _ vh => Hash.nodeHash (Hash.kvDigest k vh) lh rh
  | .KVDigest k vh => Hash.nodeHash (Hash.kvDigest k vh) lh rh
  | .KVRefValueHash k rv nvh =>
      Hash.nodeHash (Hash.kvDigest k (Hash.combine nvh (Hash.valueHash rv))) lh rh
  | .KVValueHashFeatureType k _ vh _ => Hash.nodeHash (Hash.kvDigest k vh) lh rh

/-- Attachment of a child on the given side (`Tree::attach`): fails with
`CorruptedCodeExecution` when the side is occupied, otherwise stores the
child together with its computed hash and raises the parent's height. -/
def attach (left : Bool) (parent child : PTree) : Except VmError PTree :=
  if left then
    match parent.left with
    | some _ => .error (VmError.CorruptedCodeExecution
        "Tried to attach to left child, but it is already Some")
    | none => .ok (.mk parent.node (some (child, treeHash child)) parent.right
        (max parent.height (child.height + 1)))
  else
    match parent.right with
    | some _ => .error (VmError.CorruptedCodeExecution
        "Tried to attach to left child, but it is already Some")
    | none => .ok (.mk parent.node parent.left (some (child, treeHash child))
        (max parent.height (child.height + 1)))

/-- Collapse of a subtree into a single `Node::Hash` leaf (`Tree::into_hash`). -/
def intoHash (t : PTree) : PTree := PTree.leaf (Node.Hash (treeHash t))

/-- Key of a pushed node, for exactly the variants the key-ordering check in
`execute` pattern-matches: `KV`, `KVValueHashFeatureType` and
`KVRefValueHash`.  All other variants (including `KVValueHash` and
`KVDigest`) fall through the check unexamined. -/
def orderedKey? : Node → Option Bytes
  | .KV k _ => some k
  | .KVValueHashFeatureType k _ _ _ => some k
  | .KVRefValueHash k _ _ => some k
  | _ => none

/-- The loop of `execute` in `src/merk/src/proofs/tree.rs`: processes the
operator stream against a stack of partial trees (head of the list is the
top of the stack) and the last pushed ordered key, then performs the final
single-item check.  `Parent`/`ParentInverted` pop the parent first and the
child second; `Child`/`ChildInverted` pop the child first and the parent
second.  `visit` is the caller's `visit_node` hook. -/
def executeGo (collapse : Bool) (visit : Node → Except VmError Unit) :
    List Op → List PTree → Option Bytes → Except VmError PTree
  | [], stack, _ =>
    match stack with
    | [t] => .ok t
    | _ => .error (VmError.InvalidProofError
        "Expected proof to result in exactly one stack item")
  | Op.Parent :: rest, stack, lastKey =>
    match stack with
    | parent :: child :: stack' =>
      match attach true parent (if collapse then intoHash child else child) with
      | .ok p => executeGo collapse visit rest (p :: stack') lastKey
      | .error e => .error e
    | _ => .error (VmError.InvalidProofError "Stack underflow")
  | Op.Child :: rest, stack, lastKey =>
    match stack with
    | child :: parent :: stack' =>
      match attach false parent (if collapse then intoHash child else child) with
      | .ok p => executeGo collapse visit rest (p :: stack') lastKey
      | .error e => .error e
    | _ => .error (VmError.InvalidProofError "Stack underflow")
  | Op.ParentInverted :: rest, stack, lastKey =>
    match stack with
    | parent :: child :: stack' =>
      match attach false parent (if collapse then intoHash child else child) with
      | .ok p => executeGo collapse visit rest (p :: stack') lastKey
      | .error e => .error e
    | _ => .error (VmError.InvalidProofError "Stack underflow")
  | Op.ChildInverted :: rest, stack, lastKey =>
    match stack with
    | child :: parent :: stack' =>
      match attach true parent (if collapse then intoHash child else child) with
      | .ok p => executeGo collapse visit rest (p :: stack') lastKey
      | .error e => .error e
    | _ => .error (VmError.InvalidProofError "Stack underflow")
  | Op.Push node :: rest, stack, lastKey =>
    match orderedKey? node with
    | some key =>
      match lastKey with
      | some lk =>
        if leBytes key lk then
          .error (VmError.InvalidProofError "Incorrect key ordering")
        else
          match visit node with
          | .error e => .error e
          | .ok _ => executeGo collapse visit rest (PTree.leaf node :: stack) (some key)
      | none =>
        match visit node with
        | .error e => .error e
        | .ok _ => executeGo collapse visit rest (PTree.leaf node :: stack) (some key)
    | none =>
      match visit node with
      | .error e => .error e
      | .ok _ => executeGo collapse visit rest (PTree.leaf node :: stack) lastKey
  | Op.PushInverted node :: rest, stack, lastKey =>
    match orderedKey? node with
    | some key =>
      match lastKey with
      | some lk =>
        if geBytes key lk then
          .error (VmError.InvalidProofError "Incorrect key ordering inverted")
        else
          match visit node with
          | .error e => .error e
          | .ok _ => executeGo collapse visit rest (PTree.leaf node :: stack) (some key)
      | none =>
        match visit node with
        | .error e => .error e
        | .ok _ => executeGo collapse visit rest (PTree.leaf node :: stack) (some key)
    | none =>
      match visit node with
      | .error e => .error e
      | .ok _ => executeGo collapse visit rest (PTree.leaf node :: stack) lastKey

/-- The proof VM `execute(ops, collapse, visit_node)`: runs the operator
stream on an empty stack with no last key and returns the single resulting
partial tree. -/
def execute (ops : List Op) (collapse : Bool)
    (visit : Node → Except VmError Unit) : Except VmError PTree :=
  executeGo collapse visit ops [] none

/-- Boolean success test for `Except`. -/
def exceptOk {ε α : Type} : Except ε α → Bool
  | .ok _ => true
  | .error _ => false

/-- Trivial visitor hook that accepts every pushed node. -/
def visitNothing : Node → Except VmError Unit := fun _ => .ok ()

/-- Pure tracker of the key-ordering check of `execute`: replays only the
`maybe_last_key` bookkeeping over the operator stream and reports whether
any `Push`/`PushInverted` of a checked variant violates the order. -/
def pushKeysOk : List Op → Option Bytes → Bool
  | [], _ => true
  | Op.Push node :: rest, lastKey =>
    match orderedKey? node with
    | some key =>
      match lastKey with
      | some lk => if leBytes key lk then false else pushKeysOk rest (some key)
      | none => pushKeysOk rest (some key)
    | none => pushKeysOk rest lastKey
  | Op.PushInverted node :: rest, lastKey =>
    match orderedKey? node with
    | some key =>
      match lastKey with
      | some lk => if geBytes key lk then false else pushKeysOk rest (some key)
      | none => pushKeysOk rest (some key)
    | none => pushKeysOk rest lastKey
  | _ :: rest, lastKey => pushKeysOk rest lastKey

/-- Condition under which a second push (of either flavour, after a plain
`Push` of `n1` as the first push of the stream) passes the ordering check of
`execute`: required only when both nodes carry checked keys. -/
def secondPushOk (n1 n2 : Node) : Bool :=
  match orderedKey? n2, orderedKey? n1 with
  | some k2, some k1 => !(leBytes k2 k1)
  | _, _ => true

/-- Helper: whenever the pure key-order tracker rejects the remaining
operator stream, the VM loop cannot succeed, whatever the stack, the
collapse flag and the visitor are. -/
theorem executeGo_fails_of_pushKeysOk_false (collapse : Bool)
    (visit : Node → Except VmError Unit) :
    ∀ (ops : List Op) (stack : List PTree) (lastKey : Option Bytes),
    pushKeysOk ops lastKey = false →
    exceptOk (executeGo collapse visit ops stack lastKey) = false := by
  intro ops
  induction ops with
  | nil => intro stack lastKey h; simp [pushKeysOk] at h
  | cons op rest ih =>
    intro stack lastKey h
    cases op with
    | Parent =>
      have h' : pushKeysOk rest lastKey = false := h
      match stack with
      | [] => simp [executeGo, exceptOk]
      | [p] => simp [executeGo, exceptOk]
      | parent :: child :: stack' =>
        simp only [executeGo]
        cases hat : attach true parent (if collapse then intoHash child else child) with
        | ok p => simpa [hat] using ih (p :: stack') lastKey h'
        | error e => simp [hat, exceptOk]
    | Child =>
      have h' : pushKeysOk rest lastKey = false := h
      match stack with
      | [] => simp [executeGo, exceptOk]
      | [p] => simp [executeGo, exceptOk]
      | child :: parent :: stack' =>
        simp only [executeGo]
        cases hat : attach false parent (if collapse then intoHash child else child) with
        | ok p => simpa [hat] using ih (p :: stack') lastKey h'
        | error e => simp [hat, exceptOk]
    | ParentInverted =>
      have h' : pushKeysOk rest lastKey = false := h
      match stack with
      | [] => simp [executeGo, exceptOk]
      | [p] => simp [executeGo, exceptOk]
      | parent :: child :: stack' =>
        simp only [executeGo]
        cases hat : attach false parent (if collapse then intoHash child else child) with
        | ok p => simpa [hat] using ih (p :: stack') lastKey h'
        | error e => simp [hat, exceptOk]
    | ChildInverted =>
      have h' : pushKeysOk rest lastKey = false := h
      match stack with
      | [] => simp [executeGo, exceptOk]
      | [p] => simp [executeGo, exceptOk]
      | child :: parent :: stack' =>
        simp only [executeGo]
        cases hat : attach true parent (if collapse then intoHash child else child) with
        | ok p => simpa [hat] using ih (p :: stack') lastKey h'
        | error e => simp [hat, exceptOk]
    | Push node =>
      cases hk : orderedKey? node with
      | none =>
        have h' : pushKeysOk rest lastKey = false := by
          simpa [pushKeysOk, hk] using h
        simp only [executeGo, hk]
        cases hv : visit node with
        | error e => simp [hv, exceptOk]
        | ok u => simpa [hv] using ih (PTree.leaf node :: stack) lastKey h'
      | some key =>
        cases lastKey with
        | none =>
          have h' : pushKeysOk rest (some key) = false := by
            simpa [pushKeysOk, hk] using h
          simp only [executeGo, hk]
          cases hv : visit node with
          | error e => simp [hv, exceptOk]
          | ok u => simpa [hv] using ih (PTree.leaf node :: stack) (some key) h'
        | some lk =>
          by_cases hle : leBytes key lk = true
          · simp [executeGo, hk, hle, exceptOk]
          · have hle' : leBytes key lk = false := by simpa using hle
            have h' : pushKeysOk rest (some key) = false := by
              simpa [pushKeysOk, hk, hle'] using h
            simp only [executeGo, hk, hle', Bool.false_eq_true, if_false]
            cases hv : visit node with
            | error e => simp [hv, exceptOk]
            | ok u => simpa [hv] using ih (PTree.leaf node :: stack) (some key) h'
    | PushInverted node =>
      cases hk : orderedKey? node with
      | none =>
        have h' : pushKeysOk rest lastKey = false := by
          simpa [pushKeysOk, hk] using h
        simp only [executeGo, hk]
        cases hv : visit node with
        | error e => simp [hv, exceptOk]
        | ok u => simpa [hv] using ih (PTree.leaf node :: stack) lastKey h'
      | some key =>
        cases lastKey with
        | none =>
          have h' : pushKeysOk rest (some key) = false := by
            simpa [pushKeysOk, hk] using h
          simp only [executeGo, hk]
          cases hv : visit node with
          | error e => simp [hv, exceptOk]
          | ok u => simpa [hv] using ih (PTree.leaf node :: stack) (some key) h'
        | some lk =>
          by_cases hge : geBytes key lk = true
          · simp [executeGo, hk, hge, exceptOk]
          · have hge' : geBytes key lk = false := by simpa using hge
            have h' : pushKeysOk rest (some key) = false := by
              simpa [pushKeysOk, hk, hge'] using h
            simp only [executeGo, hk, hge', Bool.false_eq_true, if_false]
            cases hv : visit node with
            | error e => simp [hv, exceptOk]
            | ok u => simpa [hv] using ih (PTree.leaf node :: stack) (some key) h'

/-- C1 counterexample: a stream whose later `Push` carries the key `[1]`,
strictly smaller than the earlier pushed key `[2]`, succeeds when the keys
sit in `KVValueHash` (or `KVDigest`) nodes: the key-ordering check in
`execute` pattern-matches only `KV`, `KVValueHashFeatureType` and
`KVRefValueHash`, so these streams are not rejected with `InvalidProof`,
contradicting the claim that every key-carrying variant is checked. -/
theorem key_order_unchecked_variants_counterexample :
    exceptOk (execute [Op.Push (Node.KVValueHash [2] [] Hash.null),
        Op.Push (Node.KVValueHash [1] [] Hash.null), Op.Parent]
      false visitNothing) = true
    ∧ exceptOk (execute [Op.Push (Node.KVDigest [2] Hash.null),
        Op.Push (Node.KVDigest [1] Hash.null), Op.Parent]
      false visitNothing) = true
    ∧ ltBytes [1] [2] = true :=
  ⟨rfl, rfl, rfl⟩

/-- C1 amended: key ordering is enforced only for pushed nodes of the
variants `KV`, `KVValueHashFeatureType` and `KVRefValueHash`.  For those,
any stream on which the replayed `maybe_last_key` bookkeeping detects a
`Push` whose key is not strictly greater than the last checked key (or a
`PushInverted` whose key is not strictly smaller) fails verification:
`execute` cannot succeed on it, for any collapse flag and visitor. -/
theorem key_order_enforced_checked_variants (ops : List Op) (collapse : Bool)
    (visit : Node → Except VmError Unit) (h : pushKeysOk ops none = false) :
    exceptOk (execute ops collapse visit) = false :=
  executeGo_fails_of_pushKeysOk_false collapse visit ops [] none h

/-- Witness for the amended C1 theorem at a concrete violating stream. -/
theorem key_order_enforced_checked_variants_witness :
    pushKeysOk [Op.Push (Node.KV [2] []), Op.Push (Node.KV [1] []),
      Op.Parent] none = false
    ∧ exceptOk (execute [Op.Push (Node.KV [2] []), Op.Push (Node.KV [1] []),
        Op.Parent] false visitNothing) = false :=
  ⟨by decide,
   key_order_enforced_checked_variants
     [Op.Push (Node.KV [2] []), Op.Push (Node.KV [1] []), Op.Parent]
     false visitNothing (by decide)⟩

/-- C2: stack discipline of the proof VM.  A `Parent`, `Child`,
`ParentInverted` or `ChildInverted` operator reached with fewer than two
stack items fails with `InvalidProof` "Stack underflow" (the second pop
comes from an empty stack); once all operators are consumed, a stack that
does not hold exactly one tree fails with `InvalidProof` "Expected proof to
result in exactly one stack item", while a single-item stack returns exactly
that one partial tree; and `execute` is the loop started on the empty
stack. -/
theorem execute_stack_discipline (collapse : Bool)
    (visit : Node → Except VmError Unit) :
    (∀ (op : Op) (rest : List Op) (stack : List PTree) (lastKey : Option Bytes),
        op = Op.Parent ∨ op = Op.Child ∨ op = Op.ParentInverted ∨
          op = Op.ChildInverted →
        stack.length < 2 →
        executeGo collapse visit (op :: rest) stack lastKey
          = .error (VmError.InvalidProofError "Stack underflow"))
    ∧ (∀ (stack : List PTree) (lastKey : Option Bytes), stack.length ≠ 1 →
        executeGo collapse visit [] stack lastKey
          = .error (VmError.InvalidProofError
              "Expected proof to result in exactly one stack item"))
    ∧ (∀ (t : PTree) (lastKey : Option Bytes),
        executeGo collapse visit [] [t] lastKey = .ok t)
    ∧ (∀ ops : List Op, execute ops collapse visit
          = executeGo collapse visit ops [] none) := by
  refine ⟨?_, ?_, ?_, ?_⟩
  · intro op rest stack lastKey hop hlen
    match stack with
    | [] =>
      rcases hop with h | h | h | h <;> subst h <;> simp [executeGo]
    | [t] =>
      rcases hop with h | h | h | h <;> subst h <;> simp [executeGo]
    | a :: b :: stack' => simp at hlen; omega
  · intro stack lastKey hlen
    match stack with
    | [] => simp [executeGo]
    | [t] => simp at hlen
    | a :: b :: stack' => simp [executeGo]
  · intro t lastKey; simp [executeGo]
  · intro ops; rfl

/-- Witness for C2 at concrete inputs: a `Child` on the empty stack
underflows, and an empty stream (empty final stack) fails the single-item
check. -/
theorem execute_stack_discipline_witness :
    executeGo false visitNothing [Op.Child] [] none
      = .error (VmError.InvalidProofError "Stack underflow")
    ∧ executeGo false visitNothing [] [] none
      = .error (VmError.InvalidProofError
          "Expected proof to result in exactly one stack item")
    ∧ executeGo false visitNothing [] [PTree.leaf (Node.KVHash Hash.null)] none
      = .ok (PTree.leaf (Node.KVHash Hash.null)) :=
  ⟨(execute_stack_discipline false visitNothing).1 Op.Child [] [] none
      (Or.inr (Or.inl rfl)) (by decide),
   (execute_stack_discipline false visitNothing).2.1 [] none (by decide),
   (execute_stack_discipline false visitNothing).2.2.1
      (PTree.leaf (Node.KVHash Hash.null)) none⟩

/-- C3 counterexample: on the stream `Push KV([1]); Push KV([2]); Parent`
the VM returns a tree whose root is the node pushed last, `KV([2],[20])`
(the top of the stack is popped as the parent), with the first-pushed node
as the left child; under the claimed pop order (child popped first, then
parent) the root would be the first-pushed node `KV([1],[10])`.  Dually,
`Child` makes the first-pushed node the root, where the claim (parent
popped first) would make the last-pushed node the root. -/
theorem vm_pop_order_counterexample :
    execute [Op.Push (Node.KV [1] [10]), Op.Push (Node.KV [2] [20]),
        Op.Parent] false visitNothing
      = .ok (PTree.mk (Node.KV [2] [20])
          (some (PTree.leaf (Node.KV [1] [10]),
                 Hash.nodeHash (Hash.kvHash [1] [10]) Hash.null Hash.null))
          none 2)
    ∧ execute [Op.Push (Node.KV [1] [10]), Op.Push (Node.KV [2] [20]),
        Op.Child] false visitNothing
      = .ok (PTree.mk (Node.KV [1] [10]) none
          (some (PTree.leaf (Node.KV [2] [20]),
                 Hash.nodeHash (Hash.kvHash [2] [20]) Hash.null Hash.null))
          2)
    ∧ Node.KV [2] [20] ≠ Node.KV [1] [10] :=
  ⟨rfl, rfl, by decide⟩

/-- C3 amended: `Parent` pops the parent first (the top of the stack) and
the child second, attaches the child as the left subtree and pushes the
parent back; `Child` pops the child first and the parent second, attaching
the child as the right subtree; `ParentInverted` and `ChildInverted` do the
same with the sides swapped.  Stated end to end for any two pushed nodes
whose keys pass the ordering check. -/
theorem vm_attach_semantics (n1 n2 : Node) (h : secondPushOk n1 n2 = true) :
    execute [Op.Push n1, Op.Push n2, Op.Parent] false visitNothing
      = .ok (PTree.mk n2 (some (PTree.leaf n1, treeHash (PTree.leaf n1)))
          none 2)
    ∧ execute [Op.Push n1, Op.Push n2, Op.Child] false visitNothing
      = .ok (PTree.mk n1 none (some (PTree.leaf n2, treeHash (PTree.leaf n2)))
          2)
    ∧ execute [Op.Push n1, Op.Push n2, Op.ParentInverted] false visitNothing
      = .ok (PTree.mk n2 none (some (PTree.leaf n1, treeHash (PTree.leaf n1)))
          2)
    ∧ execute [Op.Push n1, Op.Push n2, Op.ChildInverted] false visitNothing
      = .ok (PTree.mk n1 (some (PTree.leaf n2, treeHash (PTree.leaf n2)))
          none 2) := by
  cases hk1 : orderedKey? n1 with
  | none =>
    cases hk2 : orderedKey? n2 with
    | none =>
      refine ⟨?_, ?_, ?_, ?_⟩ <;>
        simp [execute, executeGo, hk1, hk2, visitNothing, attach, PTree.leaf,
          PTree.node, PTree.left, PTree.right, PTree.height]
    | some k2 =>
      refine ⟨?_, ?_, ?_, ?_⟩ <;>
        simp [execute, executeGo, hk1, hk2, visitNothing, attach, PTree.leaf,
          PTree.node, PTree.left, PTree.right, PTree.height]
  | some k1 =>
    cases hk2 : orderedKey? n2 with
    | none =>
      refine ⟨?_, ?_, ?_, ?_⟩ <;>
        simp [execute, executeGo, hk1, hk2, visitNothing, attach, PTree.leaf,
          PTree.node, PTree.left, PTree.right, PTree.height]
    | some k2 =>
      have hle : leBytes k2 k1 = false := by
        have := h
        simp [secondPushOk, hk1, hk2] at this
        simpa using this
      refine ⟨?_, ?_, ?_, ?_⟩ <;>
        simp [execute, executeGo, hk1, hk2, hle, visitNothing, attach,
          PTree.leaf, PTree.node, PTree.left, PTree.right, PTree.height]

/-- Witness for the amended C3 theorem at two concrete keyed nodes. -/
theorem vm_attach_semantics_witness :
    secondPushOk (Node.KV [3] [30]) (Node.KV [7] [70]) = true
    ∧ execute [Op.Push (Node.KV [3] [30]), Op.Push (Node.KV [7] [70]),
        Op.Parent] false visitNothing
      = .ok (PTree.mk (Node.KV [7] [70])
          (some (PTree.leaf (Node.KV [3] [30]),
                 treeHash (PTree.leaf (Node.KV [3] [30])))) none 2) :=
  ⟨by decide,
   (vm_attach_semantics (Node.KV [3] [30]) (Node.KV [7] [70]) (by decide)).1⟩

/-- Bytes of a string literal (ASCII code points), for the hardcoded keys of
the top-level database. -/
def strBytes (s : String) : Bytes := s.data.map Char.toNat

/-- Association-list lookup, the model of `HashMap`/`BTreeMap` `get`. -/
def assocGet {α β : Type} [DecidableEq α] : List (α × β) → α → Option β
  | [], _ => none
  | (k', v) :: rest, k => if k = k' then some v else assocGet rest k

/-- Association-list update, the model of `HashMap`/`BTreeMap` `insert`:
replaces the value under an existing key, otherwise appends the binding. -/
def assocSet {α β : Type} [DecidableEq α] : List (α × β) → α → β → List (α × β)
  | [], k, v => [(k, v)]
  | (k', v') :: rest, k, v =>
    if k = k' then (k, v) :: rest else (k', v') :: assocSet rest k v

/-- Membership follows from a successful association-list lookup. -/
theorem assocGet_mem {α β : Type} [DecidableEq α] :
    ∀ (l : List (α × β)) (k : α) (v : β), assocGet l k = some v → (k, v) ∈ l := by
  intro l
  induction l with
  | nil => intro k v h; simp [assocGet] at h
  | cons kv rest ih =>
    intro k v h
    cases kv with
    | mk k' v' =>
      by_cases hk : k = k'
      · subst hk
        simp [assocGet] at h
        subst h
        exact List.mem_cons_self _ _
      · simp [assocGet, hk] at h
        exact List.mem_cons_of_mem _ (ih k v h)

/-- Element of the top-level database (`subtree::Element` as used by
`src/grovedb/src/lib.rs`; `subtree.rs` itself is not among the sources, so
the three variants are modelled from the spec and from their uses in
`lib.rs`): an opaque item, a reference to another `(path, key)`, or a
subtree marker holding the subtree's root hash. -/
inductive GElement : Type where
  | Item (value : Bytes) : GElement
  | Reference (path : List Bytes) : GElement
  | Tree (rootHash : Bytes) : GElement
deriving DecidableEq, Repr

/-- Reference test on elements. -/
def GElement.isReference : GElement → Bool
  | .Reference _ => true
  | _ => false

/-- Tree test on elements. -/
def GElement.isTree : GElement → Bool
  | .Tree _ => true
  | _ => false

/-- Contents of one subtree Merk, modelled as its key-to-element map. -/
abbrev MerkEntries := List (Bytes × GElement)

/-- Errors of the top-level database (`grovedb::Error`), restricted to the
variants reachable from the embedded operations. -/
inductive GError : Type where
  | InvalidPath (msg : String) : GError
  | CyclicReference : GError
  | ReferenceLimit : GError
deriving DecidableEq, Repr

/-- State of the top-level database (`GroveDb`): the root tree, modelled by
its list of leaf hashes, and the map from storage prefixes to subtree
Merks.  The `rocksdb` handle carries no model state. -/
structure GroveState where
  rootTree : List Bytes
  subtrees : List (Bytes × MerkEntries)
deriving DecidableEq, Repr

/-- Path-to-prefix derivation (`GroveDb::compress_path`): concatenates the
path's segments and appends the optional key. -/
def compress_path (path : List Bytes) (key : Option Bytes) : Bytes :=
  path.foldl (fun acc p => acc ++ p) [] ++
    (match key with | some k => k | none => [])

/-- Concatenation of a path's segments, the reference function for the
amended C4 statement. -/
def segmentConcat : List Bytes → Bytes
  | [] => []
  | p :: rest => p ++ segmentConcat rest

/-- Folding append over a path prepends the accumulator to the segment
concatenation. -/
theorem foldl_append_eq_segmentConcat :
    ∀ (path : List Bytes) (acc : Bytes),
      path.foldl (fun acc p => acc ++ p) acc = acc ++ segmentConcat path := by
  intro path
  induction path with
  | nil => intro acc; simp [segmentConcat]
  | cons p rest ih => intro acc; simp [segmentConcat, ih, List.append_assoc]

/-- C4 counterexample: the two distinct subtree paths `[[0,1]]` and
`[[0],[1]]` receive the same storage prefix, so the path-to-prefix
derivation is not injective and prefixes of different subtrees collide. -/
theorem compress_path_not_injective_counterexample :
    compress_path [[0, 1]] none = compress_path [[0], [1]] none
    ∧ [[0, 1]] ≠ ([[0], [1]] : List Bytes) :=
  ⟨rfl, by decide⟩

/-- C4 amended: the storage prefix of a subtree is exactly the concatenation
of its path segments (followed by the optional key), so two paths receive
the same prefix precisely when their segment concatenations coincide —
distinct paths with equal concatenation collide. -/
theorem compress_path_eq_iff_segmentConcat_eq (p q : List Bytes)
    (k : Option Bytes) :
    compress_path p k
      = segmentConcat p ++ (match k with | some key => key | none => [])
    ∧ (compress_path p none = compress_path q none
        ↔ segmentConcat p = segmentConcat q) := by
  constructor
  · simp [compress_path, foldl_append_eq_segmentConcat]
  · simp [compress_path, foldl_append_eq_segmentConcat]

/-- Last-element split of a path (`<[_]>::split_last`, returning the
leading slice and the last segment). -/
def splitLast {α : Type} : List α → Option (List α × α)
  | [] => none
  | [a] => some ([], a)
  | a :: b :: rest =>
    match splitLast (b :: rest) with
    | some (init, lastE) => some (a :: init, lastE)
    | none => none

/-- The leading slice produced by `splitLast` is strictly shorter. -/
theorem splitLast_length_lt {α : Type} :
    ∀ (xs init : List α) (lastE : α),
      splitLast xs = some (init, lastE) → init.length < xs.length := by
  intro xs
  induction xs with
  | nil => intro init lastE h; simp [splitLast] at h
  | cons a rest ih =>
    intro init lastE h
    cases rest with
    | nil =>
      simp [splitLast] at h
      simp [h.1]
    | cons b rest' =>
      simp only [splitLast] at h
      cases hsp : splitLast (b :: rest') with
      | none => rw [hsp] at h; simp at h
      | some p =>
        rw [hsp] at h
        obtain ⟨init', lastE'⟩ := p
        simp only [Option.some.injEq, Prod.mk.injEq] at h
        obtain ⟨h1, _⟩ := h
        have hlt := ih init' lastE' hsp
        subst h1
        simp only [List.length_cons] at hlt ⊢
        omega

/-- Element lookup in one subtree Merk.  Modelled from the spec:
`Element::get` (in `subtree.rs`, not among the sources) reads and decodes
the element stored under the key, failing when the key is absent. -/
def elementGet (merk : MerkEntries) (key : Bytes) : Except GError GElement :=
  match assocGet merk key with
  | some e => .ok e
  | none => .error (GError.InvalidPath "key not found in Merk")

/-- Raw element lookup without following references
(`GroveDb::get_raw`): finds the subtree Merk under the compressed path and
reads the element at the key. -/
def get_raw (db : GroveState) (path : List Bytes) (key : Bytes) :
    Except GError GElement :=
  match assocGet db.subtrees (compress_path path none) with
  | none => .error (GError.InvalidPath "no subtree found under that path")
  | some merk => elementGet merk key

/-- Hop limit for reference dereferencing (`MAX_REFERENCE_HOPS`). -/
def MAX_REFERENCE_HOPS : Nat := 10

/-- The loop of `GroveDb::follow_reference`: while hops remain, fail with
`CyclicReference` on a revisited path, split the current path into slice
and key, read the element there, record the path as visited, and either
return a non-reference element or continue through the reference, spending
one hop. -/
def followReferenceLoop (db : GroveState) :
    Nat → List (List Bytes) → List Bytes → Except GError GElement
  | 0, _, _ => .error GError.ReferenceLimit
  | Nat.succ hops, visited, path =>
    if path ∈ visited then .error GError.CyclicReference
    else
      match splitLast path with
      | none => .error (GError.InvalidPath "empty path")
      | some (pathSlice, key) =>
        match get_raw db pathSlice key with
        | .error e => .error e
        | .ok (GElement.Reference refPath) =>
            followReferenceLoop db hops (path :: visited) refPath
        | .ok other => .ok other

/-- Reference dereferencing (`GroveDb::follow_reference`): the loop started
with `MAX_REFERENCE_HOPS` hops and no visited paths. -/
def follow_reference (db : GroveState) (path : List Bytes) :
    Except GError GElement :=
  followReferenceLoop db MAX_REFERENCE_HOPS [] path

/-- Resolvability of a single element's reference target: non-references
are fine; a reference must have a splittable (non-empty) target path whose
element lookup succeeds. -/
def refTargetOkB (db : GroveState) : GElement → Bool
  | GElement.Reference rp =>
    match splitLast rp with
    | some (pathSlice, key) => exceptOk (get_raw db pathSlice key)
    | none => false
  | _ => true

/-- Store well-formedness: every reference stored anywhere in the database
has a resolvable target. -/
def storeWFB (db : GroveState) : Bool :=
  db.subtrees.all (fun pm => pm.2.all (fun ke => refTargetOkB db ke.2))

/-- A successful raw lookup exhibits its element inside some stored subtree. -/
theorem get_raw_mem (db : GroveState) (path : List Bytes) (key : Bytes)
    (e : GElement) (h : get_raw db path key = .ok e) :
    ∃ pre merk, (pre, merk) ∈ db.subtrees ∧ (key, e) ∈ merk := by
  unfold get_raw elementGet at h
  cases hm : assocGet db.subtrees (compress_path path none) with
  | none => simp [hm] at h
  | some merk =>
    simp only [hm] at h
    cases hk : assocGet merk key with
    | none => simp [hk] at h
    | some e' =>
      simp only [hk, Except.ok.injEq] at h
      subst h
      exact ⟨_, merk, assocGet_mem _ _ _ hm, assocGet_mem _ _ _ hk⟩

/-- Unpacking of store well-formedness at one stored element. -/
theorem storeWFB_spec (db : GroveState) (hwf : storeWFB db = true)
    {pre : Bytes} {merk : MerkEntries} (hpre : (pre, merk) ∈ db.subtrees)
    {key : Bytes} {e : GElement} (hmem : (key, e) ∈ merk) :
    refTargetOkB db e = true := by
  unfold storeWFB at hwf
  rw [List.all_eq_true] at hwf
  have h1 := hwf (pre, merk) hpre
  rw [List.all_eq_true] at h1
  exact h1 (key, e) hmem

/-- Trichotomy of the reference-following loop on a well-formed store: for
any fuel, visited set and resolvable current path, the loop returns a
non-reference element, or fails with `ReferenceLimit` (fuel exhausted), or
fails with `CyclicReference` (path revisited). -/
theorem followReferenceLoop_trichotomy (db : GroveState)
    (hwf : storeWFB db = true) :
    ∀ (fuel : Nat) (visited : List (List Bytes)) (path : List Bytes),
    (∃ s k, splitLast path = some (s, k) ∧ exceptOk (get_raw db s k) = true) →
    (∃ e, followReferenceLoop db fuel visited path = .ok e
        ∧ GElement.isReference e = false)
    ∨ followReferenceLoop db fuel visited path = .error GError.ReferenceLimit
    ∨ followReferenceLoop db fuel visited path
        = .error GError.CyclicReference := by
  intro fuel
  induction fuel with
  | zero => intro visited path _; right; left; rfl
  | succ n ih =>
    intro visited path hres
    obtain ⟨s, k, hsplit, hok⟩ := hres
    by_cases hv : path ∈ visited
    · right; right; simp [followReferenceLoop, hv]
    · cases hge : get_raw db s k with
      | error e => rw [hge] at hok; simp [exceptOk] at hok
      | ok e =>
        cases e with
        | Reference rp =>
          obtain ⟨pre, merk, hpre, hmem⟩ := get_raw_mem db s k _ hge
          have htgt := storeWFB_spec db hwf hpre hmem
          have hres' : ∃ s' k', splitLast rp = some (s', k')
              ∧ exceptOk (get_raw db s' k') = true := by
            cases hsp : splitLast rp with
            | none => rw [refTargetOkB, hsp] at htgt; simp at htgt
            | some p =>
              refine ⟨p.1, p.2, by simp [hsp], ?_⟩
              rw [refTargetOkB, hsp] at htgt
              exact htgt
          have hnext := ih (path :: visited) rp hres'
          simpa [followReferenceLoop, hv, hsplit, hge] using hnext
        | Item v =>
          left
          exact ⟨GElement.Item v,
            by simp [followReferenceLoop, hv, hsplit, hge], rfl⟩
        | Tree h =>
          left
          exact ⟨GElement.Tree h,
            by simp [followReferenceLoop, hv, hsplit, hge], rfl⟩

/-- Sharpening of the outcome analysis: on a well-formed store (every
stored reference target resolves) and a resolvable starting path,
dereferencing ends in one of exactly three ways: a non-reference element,
`ReferenceLimit`, or `CyclicReference` — the lookup-error outcome of the
general statement below cannot occur there. -/
theorem follow_reference_trichotomy (db : GroveState) (path : List Bytes)
    (hwf : storeWFB db = true)
    (hstart : ∃ s k, splitLast path = some (s, k)
        ∧ exceptOk (get_raw db s k) = true) :
    (∃ e, follow_reference db path = .ok e ∧ GElement.isReference e = false)
    ∨ follow_reference db path = .error GError.ReferenceLimit
    ∨ follow_reference db path = .error GError.CyclicReference :=
  followReferenceLoop_trichotomy db hwf MAX_REFERENCE_HOPS [] path hstart

/-- Sample database state: one subtree under prefix `[1]` holding the item
`[7]` at key `[2]`. -/
def sampleGroveState : GroveState :=
  { rootTree := [], subtrees := [([1], [([2], GElement.Item [7])])] }

/-- Concrete instance of the well-formed trichotomy at the sample state and
the path `[[1],[2]]`. -/
theorem follow_reference_trichotomy_instance :
    storeWFB sampleGroveState = true
    ∧ ((∃ e, follow_reference sampleGroveState [[1], [2]] = .ok e
          ∧ GElement.isReference e = false)
      ∨ follow_reference sampleGroveState [[1], [2]]
          = .error GError.ReferenceLimit
      ∨ follow_reference sampleGroveState [[1], [2]]
          = .error GError.CyclicReference) :=
  ⟨by decide,
   follow_reference_trichotomy sampleGroveState [[1], [2]] (by decide)
     ⟨[[1]], [2], rfl, by decide⟩⟩

/-- Database state with a dangling reference: the subtree under prefix `[1]`
stores at key `[2]` a reference to `(path [[9]], key [9])`, and no subtree
exists under the prefix `[9]`.  Such states are reachable: `GroveDb::insert`
stores `Reference` elements without validating their targets. -/
def danglingGroveState : GroveState :=
  { rootTree := [],
    subtrees := [([1], [([2], GElement.Reference [[9], [9]])])] }

/-- C5 counterexample: on the dangling store, dereferencing the reference
at `[[1],[2]]` terminates with the propagated lookup error
`InvalidPath "no subtree found under that path"` — a fourth outcome that is
neither a non-reference element, nor `ReferenceLimit`, nor
`CyclicReference`, refuting the claimed three-way outcome list over all
store states. -/
theorem follow_reference_dangling_counterexample :
    follow_reference danglingGroveState [[1], [2]]
      = .error (GError.InvalidPath "no subtree found under that path")
    ∧ ¬((∃ e, follow_reference danglingGroveState [[1], [2]] = .ok e
          ∧ GElement.isReference e = false)
        ∨ follow_reference danglingGroveState [[1], [2]]
            = .error GError.ReferenceLimit
        ∨ follow_reference danglingGroveState [[1], [2]]
            = .error GError.CyclicReference) := by
  have hres : follow_reference danglingGroveState [[1], [2]]
      = .error (GError.InvalidPath "no subtree found under that path") := by
    rfl
  refine ⟨hres, ?_⟩
  intro h
  rcases h with ⟨e, he, _⟩ | he | he <;> rw [hres] at he <;> simp at he

/-- Four-way outcome analysis of the reference-following loop, with no
assumption on the store: for any fuel, visited set and path, the loop
returns a non-reference element, or fails with `ReferenceLimit`,
`CyclicReference`, or an `InvalidPath` error (empty path, missing subtree
or missing key). -/
theorem followReferenceLoop_outcomes (db : GroveState) :
    ∀ (fuel : Nat) (visited : List (List Bytes)) (path : List Bytes),
    (∃ e, followReferenceLoop db fuel visited path = .ok e
        ∧ GElement.isReference e = false)
    ∨ followReferenceLoop db fuel visited path = .error GError.ReferenceLimit
    ∨ followReferenceLoop db fuel visited path = .error GError.CyclicReference
    ∨ (∃ msg, followReferenceLoop db fuel visited path
        = .error (GError.InvalidPath msg)) := by
  intro fuel
  induction fuel with
  | zero => intro visited path; right; left; rfl
  | succ n ih =>
    intro visited path
    by_cases hv : path ∈ visited
    · right; right; left; simp [followReferenceLoop, hv]
    · cases hsp : splitLast path with
      | none =>
        right; right; right
        exact ⟨"empty path", by simp [followReferenceLoop, hv, hsp]⟩
      | some sk =>
        obtain ⟨s, k⟩ := sk
        cases hge : get_raw db s k with
        | error e =>
          cases e with
          | InvalidPath msg =>
            right; right; right
            exact ⟨msg, by simp [followReferenceLoop, hv, hsp, hge]⟩
          | CyclicReference =>
            right; right; left
            simp [followReferenceLoop, hv, hsp, hge]
          | ReferenceLimit =>
            right; left
            simp [followReferenceLoop, hv, hsp, hge]
        | ok e =>
          cases e with
          | Reference rp =>
            have hnext := ih (path :: visited) rp
            simpa [followReferenceLoop, hv, hsp, hge] using hnext
          | Item v =>
            left
            exact ⟨GElement.Item v,
              by simp [followReferenceLoop, hv, hsp, hge], rfl⟩
          | Tree h =>
            left
            exact ⟨GElement.Tree h,
              by simp [followReferenceLoop, hv, hsp, hge], rfl⟩

/-- C5 amended: reference traversal always terminates.  The hop cap is
`MAX_REFERENCE_HOPS = 10`, and for every store state and starting path,
dereferencing either returns a non-reference element (within the at most
10 lookups the loop can make), fails with `ReferenceLimit` when the hops
are exhausted, fails with `CyclicReference` when the chain revisits a
path, or fails with the propagated `InvalidPath` lookup error when the
chain reaches an empty path or a target that does not resolve. -/
theorem follow_reference_terminates_outcomes :
    MAX_REFERENCE_HOPS = 10
    ∧ ∀ (db : GroveState) (path : List Bytes),
      (∃ e, follow_reference db path = .ok e
          ∧ GElement.isReference e = false)
      ∨ follow_reference db path = .error GError.ReferenceLimit
      ∨ follow_reference db path = .error GError.CyclicReference
      ∨ (∃ msg, follow_reference db path = .error (GError.InvalidPath msg)) :=
  ⟨rfl, fun db path =>
    followReferenceLoop_outcomes db MAX_REFERENCE_HOPS [] path⟩

/-- Storage key of the common root leaf (`COMMON_TREE_KEY`). -/
def COMMON_TREE_KEY : Bytes := strBytes "common"

/-- Storage key of the identities root leaf (`IDENTITIES_TREE_KEY`). -/
def IDENTITIES_TREE_KEY : Bytes := strBytes "identities"

/-- Storage key of the public-keys-to-identity-ids root leaf
(`PUBLIC_KEYS_TO_IDENTITY_IDS_TREE_KEY`). -/
def PUBLIC_KEYS_TO_IDENTITY_IDS_TREE_KEY : Bytes :=
  strBytes "publicKeysToIdentityIDs"

/-- Storage key of the data-contracts root leaf
(`DATA_CONTRACTS_TREE_KEY`). -/
def DATA_CONTRACTS_TREE_KEY : Bytes := strBytes "dataContracts"

/-- Root tree construction (`GroveDb::build_root_tree`): collects the root
hashes of the four hardcoded leaf subtrees; the `rs_merkle` Merkle tree over
them is modelled by the list of leaf hashes.  `rootHashFn` stands for
`Merk::root_hash` (merk internals are not among the sources); the source
panics when a hardcoded subtree is absent, a state the embedded theorems
never reach, modelled by the empty-merk default. -/
def build_root_tree (rootHashFn : MerkEntries → Bytes)
    (subtrees : List (Bytes × MerkEntries)) : List Bytes :=
  [COMMON_TREE_KEY, IDENTITIES_TREE_KEY,
   PUBLIC_KEYS_TO_IDENTITY_IDS_TREE_KEY, DATA_CONTRACTS_TREE_KEY].map
    (fun key => rootHashFn ((assocGet subtrees key).getD []))

/-- Element insertion into one subtree Merk.  Modelled from the spec:
`Element::insert` (in `subtree.rs`, not among the sources) serializes the
element and stores it in the Merk under the key. -/
def elementInsert (merk : MerkEntries) (key : Bytes) (element : GElement) :
    MerkEntries :=
  assocSet merk key element

/-- Subtree Merk opening (`Merk::open` against the shared database under a
prefix).  Modelled from the spec: reopens whatever tree data is stored
under the prefix, an empty Merk when nothing is. -/
def merkOpen (subtrees : List (Bytes × MerkEntries)) (prefixBytes : Bytes) :
    MerkEntries :=
  (assocGet subtrees prefixBytes).getD []

/-- Upward propagation of subtree root hashes
(`GroveDb::propagate_changes`): walks the path towards the root; at each
step below the top it re-reads the child subtree, stores its root hash as a
`Tree` element in the parent subtree, and continues; at the top it rebuilds
the root tree. -/
def propagate_changes (rootHashFn : MerkEntries → Bytes) (db : GroveState)
    (path : List Bytes) : Except GError GroveState :=
  match hsp : splitLast path with
  | none => .ok db
  | some (pathSlice, key) =>
    if pathSlice.isEmpty then
      .ok { db with rootTree := build_root_tree rootHashFn db.subtrees }
    else
      let upperPref := compress_path pathSlice none
      let subtreePref := compress_path pathSlice (some key)
      match assocGet db.subtrees subtreePref with
      | none => .error (GError.InvalidPath "no subtree found under that path")
      | some subtree =>
        match assocGet db.subtrees upperPref with
        | none =>
            .error (GError.InvalidPath "no subtree found under that path")
        | some upper =>
          let element := GElement.Tree (rootHashFn subtree)
          let upper' := elementInsert upper key element
          propagate_changes rootHashFn
            { db with subtrees := assocSet db.subtrees upperPref upper' }
            pathSlice
termination_by path.length
decreasing_by exact splitLast_length_lt path pathSlice key hsp

/-- Insertion into the database (`GroveDb::insert`).  For a `Tree` element
it opens (or creates) the nested subtree under `path ++ [key]`, records the
subtree's root hash in the parent when the path is non-empty, and
propagates root hashes upward; for any other element an empty path is
rejected with `InvalidPath` before anything is touched, and otherwise the
element is inserted into the subtree under the compressed path and changes
are propagated.  `rootHashFn` stands for `Merk::root_hash`; the
`store_subtrees_prefixes` bookkeeping writes only to storage outside the
modelled state. -/
def GroveState.insert (rootHashFn : MerkEntries → Bytes) (db : GroveState)
    (path : List Bytes) (key : Bytes) (element : GElement) :
    Except GError Unit × GroveState :=
  let compressedPath := compress_path path none
  match element with
  | GElement.Tree _ =>
    if path.isEmpty then
      let subtreePref := compress_path path (some key)
      let subtreeMerk := merkOpen db.subtrees subtreePref
      let db1 := { db with subtrees := assocSet db.subtrees subtreePref subtreeMerk }
      match propagate_changes rootHashFn db1 [key] with
      | .error e => (.error e, db1)
      | .ok db2 => (.ok (), db2)
    else
      match assocGet db.subtrees compressedPath with
      | none => (.error (GError.InvalidPath "no subtree found under that path"), db)
      | some _ =>
        let subtreePref := compress_path path (some key)
        let subtreeMerk := merkOpen db.subtrees subtreePref
        let newRootHash := rootHashFn subtreeMerk
        let db1 := { db with subtrees := assocSet db.subtrees subtreePref subtreeMerk }
        match assocGet db1.subtrees compressedPath with
        | none =>
            (.error (GError.InvalidPath "no subtree found under that path"), db1)
        | some upperMerk =>
          let upper' := elementInsert upperMerk key (GElement.Tree newRootHash)
          let db2 := { db1 with subtrees := assocSet db1.subtrees compressedPath upper' }
          match propagate_changes rootHashFn db2 path with
          | .error e => (.error e, db2)
          | .ok db3 => (.ok (), db3)
  | _ =>
    if path.isEmpty then
      (.error (GError.InvalidPath "only subtrees are allowed as root tree's leafs"), db)
    else
      match assocGet db.subtrees compressedPath with
      | none => (.error (GError.InvalidPath "no subtree found under that path"), db)
      | some merk =>
        let merk' := elementInsert merk key element
        let db1 := { db with subtrees := assocSet db.subtrees compressedPath merk' }
        match propagate_changes rootHashFn db1 path with
        | .error e => (.error e, db1)
        | .ok db2 => (.ok (), db2)

/-- C10: inserting any non-`Tree` element at the empty path fails with
`InvalidPath` "only subtrees are allowed as root tree's leafs" and returns
the database state — root tree and all subtrees — unchanged. -/
theorem insert_root_non_tree_rejected (rootHashFn : MerkEntries → Bytes)
    (db : GroveState) (key : Bytes) (element : GElement)
    (h : GElement.isTree element = false) :
    GroveState.insert rootHashFn db [] key element
      = (.error (GError.InvalidPath
          "only subtrees are allowed as root tree's leafs"), db) := by
  cases element with
  | Tree rh => simp [GElement.isTree] at h
  | Item v => simp [GroveState.insert]
  | Reference p => simp [GroveState.insert]

/-- Witness for C10: inserting the item `[9]` at key `[5]` under the empty
path on the sample state errors and leaves the state untouched. -/
theorem insert_root_non_tree_rejected_witness :
    GElement.isTree (GElement.Item [9]) = false
    ∧ GroveState.insert (fun _ => []) sampleGroveState [] [5]
        (GElement.Item [9])
      = (.error (GError.InvalidPath
          "only subtrees are allowed as root tree's leafs"), sampleGroveState) :=
  ⟨rfl,
   insert_root_non_tree_rejected (fun _ => []) sampleGroveState [5]
     (GElement.Item [9]) rfl⟩

/-- Key of a proof-tree node (`Tree::key`), defined for the four keyed
variants; the source panics on the others, modelled by `none`. -/
def nodeKey? : Node → Option Bytes
  | .KV k _ => some k
  | .KVValueHash k _ _ => some k
  | .KVRefValueHash k _ _ => some k
  | .KVValueHashFeatureType k _ _ _ => some k
  | _ => none

/-- In-order list of the nodes of a proof tree at the given depth, the model
of `Tree::layer` / `LayerIter` (which panic when the traversal runs out of
children; on trees that are perfect down to the depth the two agree). -/
def layerNodes : Nat → PTree → List PTree
  | 0, t => [t]
  | Nat.succ d, t =>
    (match t.left with | some c => layerNodes d c.1 | none => [])
      ++ (match t.right with | some c => layerNodes d c.1 | none => [])

/-- A proof tree is perfect down to the given depth: every node above that
depth has both children. -/
def perfectTo : Nat → PTree → Bool
  | 0, _ => true
  | Nat.succ d, t =>
    match t.left, t.right with
    | some l, some r => perfectTo d l.1 && perfectTo d r.1
    | _, _ => false

/-- On a tree perfect down to depth `d`, the depth-`d` layer holds exactly
`2 ^ d` nodes. -/
theorem layerNodes_length_of_perfect :
    ∀ (d : Nat) (t : PTree), perfectTo d t = true →
      (layerNodes d t).length = 2 ^ d := by
  intro d
  induction d with
  | zero => intro t _; simp [layerNodes]
  | succ n ih =>
    intro t h
    cases hl : t.left with
    | none => simp [perfectTo, hl] at h
    | some l =>
      cases hr : t.right with
      | none => simp [perfectTo, hl, hr] at h
      | some r =>
        simp only [perfectTo, hl, hr, Bool.and_eq_true] at h
        simp only [layerNodes, hl, hr, List.length_append,
          ih l.1 h.1, ih r.1 h.2, pow_succ]
        ring

/-- Error kind raised by the restorer (`Error::ChunkRestoringError`). -/
inductive RestoreError : Type where
  | ChunkRestoringError (msg : String) : RestoreError
deriving DecidableEq, Repr

/-- Verification bookkeeping of a `Restorer` (`src/merk/src/merk/restore.rs`):
the pending leaf-chunk hashes, the pending parent keys (a parent key is
`none` where `Tree::key` would panic), and the computed trunk height.  All
three start as `None`; the `Merk`, the expected root hash and the combining
value act only on storage and hashes outside this bookkeeping. -/
structure RestorerState where
  leafHashes : Option (List Hash)
  parentKeys : Option (List (Option Bytes))
  trunkHeight : Option Nat
deriving DecidableEq, Repr

/-- A freshly created restorer (`Restorer::new`): no chunk processed yet. -/
def freshRestorer : RestorerState :=
  { leafHashes := none, parentKeys := none, trunkHeight := none }

/-- Minimum trunk height for leaf chunks to exist.  Modelled from the spec:
`MIN_TRUNK_HEIGHT` lives in `crate::proofs::chunk`, which is not among the
sources; the spec fixes the leaf-chunk count to 0 when `trunk_height < 2`. -/
def MIN_TRUNK_HEIGHT : Nat := 2

/-- Bookkeeping part of `Restorer::process_trunk`, applied to the verified
trunk tree and proof height returned by `verify_trunk` (the hash
verification against the expected root precedes this and is not part of the
bookkeeping): computes `trunk_height = height / 2`; when it reaches
`MIN_TRUNK_HEIGHT`, records the depth-`trunk_height` layer hashes as
pending leaf hashes and the layer above as pending parent keys and returns
`2 ^ trunk_height` remaining chunks, otherwise records empty queues and
returns 0. -/
def process_trunk (trunk : PTree) (height : Nat) : RestorerState × Nat :=
  let trunkHeight := height / 2
  if MIN_TRUNK_HEIGHT ≤ trunkHeight then
    let leafHashes := (layerNodes trunkHeight trunk).map treeHash
    let parentKeys :=
      (layerNodes (trunkHeight - 1) trunk).map (fun n => nodeKey? n.node)
    ({ leafHashes := some leafHashes, parentKeys := some parentKeys,
       trunkHeight := some trunkHeight }, 2 ^ trunkHeight)
  else
    ({ leafHashes := some [], parentKeys := some [],
       trunkHeight := some trunkHeight }, 0)

/-- Remaining leaf chunks (`Restorer::remaining_chunks`): `None` before the
trunk is processed, otherwise the length of the pending leaf-hash queue. -/
def remaining_chunks (st : RestorerState) : Option Nat :=
  st.leafHashes.map List.length

/-- Outcome of `Restorer::finalize` on the bookkeeping state: `none` models
the Rust panic (`self.trunk_height.unwrap()` on `None`), reachable because
the guard reads `remaining_chunks().unwrap_or(0)`; an `error` is returned
when chunks are still pending; `ok` stands for the successful path that
rewrites child heights and loads the base root. -/
def finalize (st : RestorerState) : Option (Except RestoreError Unit) :=
  if (remaining_chunks st).getD 0 ≠ 0 then
    some (.error (RestoreError.ChunkRestoringError
      "Called finalize before all chunks were processed"))
  else
    match st.trunkHeight with
    | none => none
    | some _ => some (.ok ())

/-- C7: after a successful trunk verification on a trunk that is perfect
down to `height / 2`, the restorer records `trunk_height = height / 2`, the
returned expected leaf-chunk count is `2 ^ trunk_height` when
`trunk_height ≥ 2` and `0` when `trunk_height < 2`, and `remaining_chunks`
reports exactly that count. -/
theorem process_trunk_chunk_count (trunk : PTree) (height : Nat)
    (hperf : perfectTo (height / 2) trunk = true) :
    (process_trunk trunk height).1.trunkHeight = some (height / 2)
    ∧ (2 ≤ height / 2 → (process_trunk trunk height).2 = 2 ^ (height / 2))
    ∧ (height / 2 < 2 → (process_trunk trunk height).2 = 0)
    ∧ remaining_chunks (process_trunk trunk height).1
        = some (process_trunk trunk height).2 := by
  by_cases hth : MIN_TRUNK_HEIGHT ≤ height / 2
  · refine ⟨?_, fun _ => ?_, fun hlt => ?_, ?_⟩
    · simp [process_trunk, hth]
    · simp [process_trunk, hth]
    · exact absurd hth (by simp [MIN_TRUNK_HEIGHT]; omega)
    · simp [process_trunk, hth, remaining_chunks,
        layerNodes_length_of_perfect _ _ hperf]
  · refine ⟨?_, fun hge => ?_, fun _ => ?_, ?_⟩
    · simp [process_trunk, hth]
    · exact absurd hge (by simpa [MIN_TRUNK_HEIGHT] using hth)
    · simp [process_trunk, hth]
    · simp [process_trunk, hth, remaining_chunks]

/-- Sample trunk: a perfect binary proof tree of depth 2 over `KVHash`
nodes. -/
def sampleTrunk : PTree :=
  let lf := PTree.leaf (Node.KVHash Hash.null)
  let mid := PTree.mk (Node.KVHash Hash.null) (some (lf, treeHash lf))
    (some (lf, treeHash lf)) 2
  PTree.mk (Node.KVHash Hash.null) (some (mid, treeHash mid))
    (some (mid, treeHash mid)) 3

/-- Witness for C7 on the sample trunk with proof height 4
(`trunk_height = 2`, four expected leaf chunks). -/
theorem process_trunk_chunk_count_witness :
    perfectTo (4 / 2) sampleTrunk = true
    ∧ (process_trunk sampleTrunk 4).2 = 2 ^ (4 / 2)
    ∧ remaining_chunks (process_trunk sampleTrunk 4).1
        = some (process_trunk sampleTrunk 4).2 :=
  ⟨by decide,
   (process_trunk_chunk_count sampleTrunk 4 (by decide)).2.1 (by decide),
   (process_trunk_chunk_count sampleTrunk 4 (by decide)).2.2.2⟩

/-- Restorer state after a processed trunk with one leaf chunk still
pending. -/
def pendingRestorer : RestorerState :=
  { leafHashes := some [Hash.null], parentKeys := some ([] : List (Option Bytes)),
    trunkHeight := some 2 }

/-- C8 (code bug): calling `finalize` on a fresh restorer — no chunk, not
even the trunk, processed — does not return a `ChunkRestoring` error: since
`remaining_chunks()` is `None`, `unwrap_or(0)` passes the incompleteness
guard and `self.trunk_height.unwrap()` panics (modelled by `none`),
contradicting both the claim and `finalize`'s own documentation.  After a
trunk whose leaf chunks are still pending, `finalize` does fail with the
`ChunkRestoringError` as claimed. -/
theorem finalize_before_first_chunk :
    finalize freshRestorer = none
    ∧ finalize pendingRestorer
      = some (.error (RestoreError.ChunkRestoringError
          "Called finalize before all chunks were processed")) :=
  ⟨rfl, rfl⟩

/-- Number of LEB128 bytes of a length.  Modelled from the spec:
variable-length integers use LEB128-style encoding; five bytes cover every
`u32` length. -/
def varintSize (n : Nat) : Nat :=
  if n < 128 then 1
  else if n < 16384 then 2
  else if n < 2097152 then 3
  else if n < 268435456 then 4
  else 5

/-- Required space of a length-prefixed field.  Modelled from the spec:
`len + varint_size(len)`. -/
def requiredSpace (len : Nat) : Nat := len + varintSize len

/-- Storage bytes of an item's key entry.  Modelled from the spec and the
cost breakdown asserted by the deletion cost tests: a 32-byte subtree
prefix plus the key, stored length-prefixed. -/
def itemKeyStorageCost (keyLen : Nat) : Nat := requiredSpace (32 + keyLen)

/-- Storage bytes of an item's value entry.  Modelled from the spec's
element payload layout and the tests' breakdown: one flag-option byte, one
element-tag byte, the length-prefixed item bytes, a 32-byte node hash and a
32-byte value hash, all stored length-prefixed. -/
def itemValueStorageCost (valueLen : Nat) : Nat :=
  requiredSpace (1 + 1 + requiredSpace valueLen + 32 + 32)

/-- Storage bytes the parent spends on its link to the item.  Modelled from
the spec's link record and the tests' breakdown: key bytes, 32-byte hash,
one key-length byte and two child-height bytes. -/
def itemParentHookCost (keyLen : Nat) : Nat := keyLen + 32 + 1 + 2

/-- Added storage bytes of inserting an item (`storage_cost.added_bytes`).
Modelled from the spec: the sum of the key entry, the value entry and the
parent hook. -/
def insert_item_added_bytes (keyLen valueLen : Nat) : Nat :=
  itemKeyStorageCost keyLen + itemValueStorageCost valueLen
    + itemParentHookCost keyLen

/-- Total removed storage bytes of the non-batch deletion of an item
(`removed_bytes.total_removed_bytes()`).  Modelled from the spec's delete
cost symmetry: deletion frees exactly the key entry, value entry and parent
hook bytes that insertion added. -/
def delete_item_removed_bytes (keyLen valueLen : Nat) : Nat :=
  itemKeyStorageCost keyLen + itemValueStorageCost valueLen
    + itemParentHookCost keyLen

/-- Total removed storage bytes of deleting the item through
`apply_batch`.  Modelled from the spec's batch-equals-non-batch cost
property: the batch engine invokes the same cost hooks as a non-batch
single-tree commit, removing the same key entry, value entry and parent
hook bytes. -/
def batch_delete_item_removed_bytes (keyLen valueLen : Nat) : Nat :=
  itemKeyStorageCost keyLen + itemValueStorageCost valueLen
    + itemParentHookCost keyLen

/-- C6: for the scenario of inserting `Item("cat")` at key `"key1"` under
the root path and then deleting it, the insertion's added bytes, the
non-batch deletion's total removed bytes and the batch deletion's total
removed bytes all equal 147; and in general the single-op batch deletion
cost equals the non-batch deletion cost, which equals the insertion
cost. -/
theorem single_item_deletion_cost_equality :
    (strBytes "key1").length = 4
    ∧ (strBytes "cat").length = 3
    ∧ insert_item_added_bytes 4 3 = 147
    ∧ delete_item_removed_bytes 4 3 = 147
    ∧ batch_delete_item_removed_bytes 4 3 = 147
    ∧ ∀ keyLen valueLen,
        delete_item_removed_bytes keyLen valueLen
          = insert_item_added_bytes keyLen valueLen
        ∧ batch_delete_item_removed_bytes keyLen valueLen
          = delete_item_removed_bytes keyLen valueLen :=
  ⟨rfl, rfl, by decide, by decide, by decide, fun _ _ => ⟨rfl, rfl⟩⟩

/-- Element of the batch-era database (`Element` as used by
`src/grovedb/src/batch/batch_structure.rs` and
`src/grovedb/src/element/helpers.rs`): item, reference, subtree marker, sum
item and sum tree, each carrying optional flags. -/
inductive BElement : Type where
  | Item (value : Bytes) (flags : Option Bytes) : BElement
  | Reference (refPath : List Bytes) (maxHops : Option Nat)
      (flags : Option Bytes) : BElement
  | Tree (rootKey : Option Bytes) (flags : Option Bytes) : BElement
  | SumItem (value : Int) (flags : Option Bytes) : BElement
  | SumTree (rootKey : Option Bytes) (sum : Int) (flags : Option Bytes) :
      BElement
deriving DecidableEq, Repr

/-- Batch operation (`batch::Op`): the user-facing insert, replace, patch
and delete variants plus the two internal tree-hash operations (whose exact
payloads live outside the sources and are modelled from the spec). -/
inductive BatchOp : Type where
  | Insert (element : BElement) : BatchOp
  | Replace (element : BElement) : BatchOp
  | Patch (element : BElement) (changeInBytes : Int) : BatchOp
  | Delete : BatchOp
  | DeleteTree : BatchOp
  | DeleteSumTree : BatchOp
  | ReplaceTreeRootKey (hash : Hash) (rootKey : Option Bytes)
      (sum : Option Int) : BatchOp
  | InsertTreeWithRootHash (hash : Hash) (rootKey : Option Bytes)
      (flags : Option Bytes) (sum : Option Int) : BatchOp
deriving DecidableEq, Repr

/-- Internal-only test on batch operations. -/
def isInternalOp : BatchOp → Bool
  | BatchOp.ReplaceTreeRootKey _ _ _ => true
  | BatchOp.InsertTreeWithRootHash _ _ _ _ => true
  | _ => false

/-- One submitted batch entry (`GroveDbOp`): path, key and operation.
`KeyInfo`/`KeyInfoPath` wrappers are modelled by the plain bytes they
carry. -/
structure GroveDbOp where
  path : List Bytes
  key : Bytes
  op : BatchOp
deriving DecidableEq, Repr

/-- Errors of the batch structure builder: the `InvalidBatchOperation`
rejection, and errors surfaced by the `TreeCache` collaborator. -/
inductive BatchError : Type where
  | InvalidBatchOperation (msg : String) : BatchError
  | CacheError (msg : String) : BatchError
deriving DecidableEq, Repr

/-- The `ops_by_level_paths` index (`OpsByLevelPath`): level to path to key
to operation, each map modelled as an association list. -/
abbrev OpsLevelMap := List (Nat × List (List Bytes × List (Bytes × BatchOp)))

/-- The built batch structure (`BatchStructure`), restricted to the fields
the builder computes: the level index, the qualified-path index for
reference resolution, and the last (deepest) level.  The tree cache and the
two cost hooks are carried through unchanged. -/
structure BatchStructureM where
  opsByLevelPaths : OpsLevelMap
  opsByQualifiedPaths : List (List Bytes × BatchOp)
  lastLevel : Nat
deriving Repr

/-- Tree-cache priming for one element (`merk_tree_cache.insert(&op, ..)`):
invoked with `false` for `Tree` and `true` for `SumTree` insertions, not at
all otherwise. -/
def cacheCheck (cacheInsert : GroveDbOp → Bool → Except BatchError Unit)
    (op : GroveDbOp) : BElement → Except BatchError Unit
  | BElement.Tree _ _ => cacheInsert op false
  | BElement.SumTree _ _ _ => cacheInsert op true
  | _ => .ok ()

/-- Per-operation admissibility check of `continue_from_ops`:
insert/replace/patch prime the tree cache, deletes pass, and the two
internal operations are rejected with `InvalidBatchOperation`. -/
def opCheck (cacheInsert : GroveDbOp → Bool → Except BatchError Unit)
    (op : GroveDbOp) : Except BatchError Unit :=
  match op.op with
  | BatchOp.Insert e => cacheCheck cacheInsert op e
  | BatchOp.Replace e => cacheCheck cacheInsert op e
  | BatchOp.Patch e _ => cacheCheck cacheInsert op e
  | BatchOp.Delete => .ok ()
  | BatchOp.DeleteTree => .ok ()
  | BatchOp.DeleteSumTree => .ok ()
  | BatchOp.ReplaceTreeRootKey _ _ _ =>
      .error (BatchError.InvalidBatchOperation
        "replace and insert tree hash are internal operations only")
  | BatchOp.InsertTreeWithRootHash _ _ _ _ =>
      .error (BatchError.InvalidBatchOperation
        "replace and insert tree hash are internal operations only")

/-- Indexing of one admitted operation into `ops_by_level_paths` at
`level = len(path)`, mirroring the nested map insertions of the source;
`current_last_level` is bumped only when a new level entry is created. -/
def addOpAtLevel (m : OpsLevelMap) (path : List Bytes) (key : Bytes)
    (op : BatchOp) (lastLevel : Nat) : OpsLevelMap × Nat :=
  let level := path.length
  match assocGet m level with
  | some opsOnLevel =>
    match assocGet opsOnLevel path with
    | some opsOnPath =>
        (assocSet m level (assocSet opsOnLevel path (assocSet opsOnPath key op)),
         lastLevel)
    | none =>
        (assocSet m level (assocSet opsOnLevel path [(key, op)]), lastLevel)
  | none =>
    (assocSet m level [(path, [(key, op)])],
     if lastLevel < level then level else lastLevel)

/-- The loop of `BatchStructure::continue_from_ops`: for each operation,
record it under its qualified path, run the admissibility check, and index
it by level. -/
def continueFromOpsGo (cacheInsert : GroveDbOp → Bool → Except BatchError Unit) :
    List GroveDbOp → OpsLevelMap → List (List Bytes × BatchOp) → Nat →
    Except BatchError BatchStructureM
  | [], levels, qual, lastLevel => .ok ⟨levels, qual, lastLevel⟩
  | op :: rest, levels, qual, lastLevel =>
    let qual' := assocSet qual (op.path ++ [op.key]) op.op
    match opCheck cacheInsert op with
    | .error e => .error e
    | .ok _ =>
      let res := addOpAtLevel levels op.path op.key op.op lastLevel
      continueFromOpsGo cacheInsert rest res.1 qual' res.2

/-- Batch structure construction continuing from previous levels
(`BatchStructure::continue_from_ops`). -/
def continue_from_ops (previousOps : Option OpsLevelMap)
    (ops : List GroveDbOp)
    (cacheInsert : GroveDbOp → Bool → Except BatchError Unit) :
    Except BatchError BatchStructureM :=
  continueFromOpsGo cacheInsert ops (previousOps.getD []) [] 0

/-- Batch structure construction from a list of operations
(`BatchStructure::from_ops`). -/
def from_ops (ops : List GroveDbOp)
    (cacheInsert : GroveDbOp → Bool → Except BatchError Unit) :
    Except BatchError BatchStructureM :=
  continue_from_ops none ops cacheInsert

/-- Presence of an entry in the level index at a given level, path and
key. -/
def levelHasOp (m : OpsLevelMap) (level : Nat) (path : List Bytes)
    (key : Bytes) : Bool :=
  match assocGet m level with
  | some opsOnLevel =>
    match assocGet opsOnLevel path with
    | some opsOnPath => (assocGet opsOnPath key).isSome
    | none => false
  | none => false

/-- Lookup after update at the same key returns the new value. -/
theorem assocGet_assocSet_self {α β : Type} [DecidableEq α] :
    ∀ (l : List (α × β)) (k : α) (v : β), assocGet (assocSet l k v) k = some v := by
  intro l
  induction l with
  | nil => intro k v; simp [assocSet, assocGet]
  | cons kv rest ih =>
    intro k v
    obtain ⟨k', v'⟩ := kv
    by_cases hk : k = k'
    · simp [assocSet, assocGet, hk]
    · simp [assocSet, assocGet, hk, ih]

/-- Lookup after update at another key is unchanged. -/
theorem assocGet_assocSet_ne {α β : Type} [DecidableEq α] :
    ∀ (l : List (α × β)) (k q : α) (v : β), q ≠ k →
      assocGet (assocSet l k v) q = assocGet l q := by
  intro l
  induction l with
  | nil => intro k q v hne; simp [assocSet, assocGet, hne]
  | cons kv rest ih =>
    intro k q v hne
    obtain ⟨k', v'⟩ := kv
    by_cases hk : k = k'
    · subst hk
      simp [assocSet, assocGet, hne]
    · by_cases hq : q = k'
      · simp [assocSet, assocGet, hk, hq]
      · simp [assocSet, assocGet, hk, hq, ih _ _ _ hne]

/-- Indexing an operation makes it present at its level, path and key. -/
theorem levelHasOp_addOpAtLevel_self (m : OpsLevelMap) (path : List Bytes)
    (key : Bytes) (op : BatchOp) (lastLevel : Nat) :
    levelHasOp (addOpAtLevel m path key op lastLevel).1 path.length path key
      = true := by
  cases hl : assocGet m path.length with
  | none =>
    simp [addOpAtLevel, levelHasOp, hl, assocGet_assocSet_self, assocGet]
  | some opsOnLevel =>
    cases hp : assocGet opsOnLevel path with
    | none =>
      simp [addOpAtLevel, levelHasOp, hl, hp, assocGet_assocSet_self, assocGet]
    | some opsOnPath =>
      simp [addOpAtLevel, levelHasOp, hl, hp, assocGet_assocSet_self]

/-- Indexing an operation preserves every entry already present. -/
theorem levelHasOp_addOpAtLevel_mono (m : OpsLevelMap) (path : List Bytes)
    (key : Bytes) (op : BatchOp) (lastLevel : Nat) (l : Nat)
    (p : List Bytes) (k : Bytes)
    (h : levelHasOp m l p k = true) :
    levelHasOp (addOpAtLevel m path key op lastLevel).1 l p k = true := by
  obtain ⟨lv, pm, hl, hp, hk⟩ :
      ∃ lv pm, assocGet m l = some lv ∧ assocGet lv p = some pm
        ∧ (assocGet pm k).isSome = true := by
    cases hl : assocGet m l with
    | none => simp [levelHasOp, hl] at h
    | some lv =>
      cases hp : assocGet lv p with
      | none => simp [levelHasOp, hl, hp] at h
      | some pm =>
        simp only [levelHasOp, hl, hp] at h
        exact ⟨lv, pm, rfl, hp, h⟩
  by_cases hll : l = path.length
  · subst hll
    cases hpl : assocGet lv path with
    | some pmT =>
      by_cases hps : p = path
      · subst hps
        rw [hp] at hpl
        injection hpl with hpl'
        subst hpl'
        by_cases hks : k = key
        · subst hks
          simp [addOpAtLevel, hl, hp, levelHasOp, assocGet_assocSet_self]
        · simp [addOpAtLevel, hl, hp, levelHasOp, assocGet_assocSet_self,
            assocGet_assocSet_ne _ _ _ _ hks, hk]
      · simp [addOpAtLevel, hl, hpl, levelHasOp, assocGet_assocSet_self,
          assocGet_assocSet_ne _ _ _ _ hps, hp, hk]
    | none =>
      by_cases hps : p = path
      · subst hps; rw [hp] at hpl; cases hpl
      · simp [addOpAtLevel, hl, hpl, levelHasOp, assocGet_assocSet_self,
          assocGet_assocSet_ne _ _ _ _ hps, hp, hk]
  · cases hpp : assocGet m path.length with
    | some lvT =>
      cases hpl : assocGet lvT path with
      | some pmT =>
        simp [addOpAtLevel, hpp, hpl, levelHasOp,
          assocGet_assocSet_ne _ _ _ _ hll, hl, hp, hk]
      | none =>
        simp [addOpAtLevel, hpp, hpl, levelHasOp,
          assocGet_assocSet_ne _ _ _ _ hll, hl, hp, hk]
    | none =>
      simp [addOpAtLevel, hpp, levelHasOp,
        assocGet_assocSet_ne _ _ _ _ hll, hl, hp, hk]

/-- On non-internal operations the admissibility check succeeds whenever
the tree cache does. -/
theorem opCheck_ok_of_not_internal
    (cacheInsert : GroveDbOp → Bool → Except BatchError Unit)
    (hcache : ∀ o b, cacheInsert o b = .ok ()) (op : GroveDbOp)
    (h : isInternalOp op.op = false) :
    opCheck cacheInsert op = .ok () := by
  cases hop : op.op with
  | Insert e => cases e <;> simp [opCheck, cacheCheck, hop, hcache]
  | Replace e => cases e <;> simp [opCheck, cacheCheck, hop, hcache]
  | Patch e c => cases e <;> simp [opCheck, cacheCheck, hop, hcache]
  | Delete => simp [opCheck, hop]
  | DeleteTree => simp [opCheck, hop]
  | DeleteSumTree => simp [opCheck, hop]
  | ReplaceTreeRootKey a b c => rw [hop] at h; simp [isInternalOp] at h
  | InsertTreeWithRootHash a b c d => rw [hop] at h; simp [isInternalOp] at h

/-- Any batch containing an internal operation is rejected with
`InvalidBatchOperation`, provided the tree cache itself raises no error. -/
theorem continueFromOpsGo_internal_rejected
    (cacheInsert : GroveDbOp → Bool → Except BatchError Unit)
    (hcache : ∀ o b, cacheInsert o b = .ok ()) :
    ∀ (ops : List GroveDbOp) (levels : OpsLevelMap)
      (qual : List (List Bytes × BatchOp)) (lastLevel : Nat),
    (∃ op ∈ ops, isInternalOp op.op = true) →
    continueFromOpsGo cacheInsert ops levels qual lastLevel
      = .error (BatchError.InvalidBatchOperation
          "replace and insert tree hash are internal operations only") := by
  intro ops
  induction ops with
  | nil => intro levels qual lastLevel h; obtain ⟨op, hmem, _⟩ := h; simp at hmem
  | cons op rest ih =>
    intro levels qual lastLevel h
    by_cases hop : isInternalOp op.op = true
    · have hcheck : opCheck cacheInsert op
          = .error (BatchError.InvalidBatchOperation
              "replace and insert tree hash are internal operations only") := by
        cases hx : op.op <;> simp [isInternalOp, hx] at hop ⊢ <;>
          simp [opCheck, hx]
      simp [continueFromOpsGo, hcheck]
    · have hop' : isInternalOp op.op = false := by simpa using hop
      have hcheck := opCheck_ok_of_not_internal cacheInsert hcache op hop'
      have hrest : ∃ o ∈ rest, isInternalOp o.op = true := by
        obtain ⟨o, hmem, hint⟩ := h
        rcases List.mem_cons.mp hmem with heq | hmem'
        · subst heq; exact absurd hint hop
        · exact ⟨o, hmem', hint⟩
      simp [continueFromOpsGo, hcheck, ih _ _ _ hrest]

/-- A batch of only user-facing operations builds successfully, and the
result indexes every operation at level `len(path)` under its path and
key. -/
theorem continueFromOpsGo_ok_indexed
    (cacheInsert : GroveDbOp → Bool → Except BatchError Unit)
    (hcache : ∀ o b, cacheInsert o b = .ok ()) :
    ∀ (ops : List GroveDbOp) (levels : OpsLevelMap)
      (qual : List (List Bytes × BatchOp)) (lastLevel : Nat),
    (∀ op ∈ ops, isInternalOp op.op = false) →
    ∃ bs, continueFromOpsGo cacheInsert ops levels qual lastLevel = .ok bs
      ∧ (∀ l p k, levelHasOp levels l p k = true →
          levelHasOp bs.opsByLevelPaths l p k = true)
      ∧ (∀ op ∈ ops,
          levelHasOp bs.opsByLevelPaths op.path.length op.path op.key
            = true) := by
  intro ops
  induction ops with
  | nil =>
    intro levels qual lastLevel _
    exact ⟨⟨levels, qual, lastLevel⟩, rfl, fun l p k h => h, by simp⟩
  | cons op rest ih =>
    intro levels qual lastLevel hops
    have hop : isInternalOp op.op = false := hops op (List.mem_cons_self _ _)
    have hrest : ∀ o ∈ rest, isInternalOp o.op = false :=
      fun o hm => hops o (List.mem_cons_of_mem _ hm)
    have hcheck := opCheck_ok_of_not_internal cacheInsert hcache op hop
    obtain ⟨bs, hgo, hmono, hidx⟩ :=
      ih (addOpAtLevel levels op.path op.key op.op lastLevel).1
        (assocSet qual (op.path ++ [op.key]) op.op)
        (addOpAtLevel levels op.path op.key op.op lastLevel).2 hrest
    refine ⟨bs, ?_, ?_, ?_⟩
    · simp [continueFromOpsGo, hcheck, hgo]
    · intro l p k h
      exact hmono l p k
        (levelHasOp_addOpAtLevel_mono levels op.path op.key op.op lastLevel
          l p k h)
    · intro o hmem
      rcases List.mem_cons.mp hmem with heq | hmem'
      · subst heq
        exact hmono o.path.length o.path o.key
          (levelHasOp_addOpAtLevel_self levels o.path o.key o.op lastLevel)
      · exact hidx o hmem'

/-- C9: building the batch structure from user-submitted operations rejects
any batch containing a `ReplaceTreeRootKey` or `InsertTreeWithRootHash`
with `InvalidBatchOperation`, while a batch of only
insert/replace/patch/delete operations passes the check and is indexed by
`level = len(path)` (provided the tree cache raises no error of its own). -/
theorem batch_structure_ingestion (ops : List GroveDbOp)
    (cacheInsert : GroveDbOp → Bool → Except BatchError Unit)
    (hcache : ∀ o b, cacheInsert o b = .ok ()) :
    ((∃ op ∈ ops, isInternalOp op.op = true) →
      from_ops ops cacheInsert
        = .error (BatchError.InvalidBatchOperation
            "replace and insert tree hash are internal operations only"))
    ∧ ((∀ op ∈ ops, isInternalOp op.op = false) →
      ∃ bs, from_ops ops cacheInsert = .ok bs
        ∧ ∀ op ∈ ops,
            levelHasOp bs.opsByLevelPaths op.path.length op.path op.key
              = true) := by
  constructor
  · intro h
    exact continueFromOpsGo_internal_rejected cacheInsert hcache ops [] [] 0 h
  · intro h
    obtain ⟨bs, hgo, _, hidx⟩ :=
      continueFromOpsGo_ok_indexed cacheInsert hcache ops [] [] 0 h
    exact ⟨bs, hgo, hidx⟩

/-- Tree cache stub that accepts every priming call. -/
def cacheAlwaysOk : GroveDbOp → Bool → Except BatchError Unit :=
  fun _ _ => .ok ()

/-- Witness for C9: a singleton batch holding an internal
`ReplaceTreeRootKey` is rejected, and a singleton `Delete` batch builds and
is indexed at its level, path and key. -/
theorem batch_structure_ingestion_witness :
    from_ops [⟨[], [1], BatchOp.ReplaceTreeRootKey Hash.null none none⟩]
        cacheAlwaysOk
      = .error (BatchError.InvalidBatchOperation
          "replace and insert tree hash are internal operations only")
    ∧ ∃ bs, from_ops [⟨[[2]], [1], BatchOp.Delete⟩] cacheAlwaysOk = .ok bs
        ∧ ∀ op ∈ [(⟨[[2]], [1], BatchOp.Delete⟩ : GroveDbOp)],
            levelHasOp bs.opsByLevelPaths op.path.length op.path op.key
              = true :=
  ⟨(batch_structure_ingestion
      [⟨[], [1], BatchOp.ReplaceTreeRootKey Hash.null none none⟩]
      cacheAlwaysOk (fun _ _ => rfl)).1
      ⟨⟨[], [1], BatchOp.ReplaceTreeRootKey Hash.null none none⟩,
        List.mem_singleton.mpr rfl, rfl⟩,
   (batch_structure_ingestion [⟨[[2]], [1], BatchOp.Delete⟩]
      cacheAlwaysOk (fun _ _ => rfl)).2 (by decide)⟩
